import Mathlib

/-!
# Verification of the spectral unmixing / tiled ROI segmentation pipeline

Shallow embedding of the pipeline notebooks of the
`skunkworks-parkinsons-detection` repository: the `normalise` map
normalisation, the batched least-squares unmixing step, the fixed-stride
tile scan of `spectral_decompose_and_dump_jpeg` (raw and differential
inclusion policies, JPEG dump loop, density array), and the per-slide
`process` wrapper used by the batch driver.

Machine floats are embedded as exact rationals `ℚ` (with Lean's
`x / 0 = 0` convention standing in for the degenerate divisions);
`numpy` arrays are embedded as lists (2D arrays as `List (List ℚ)`),
and index arithmetic is over `ℕ`.
-/

namespace Parkinsons

/-! ## Tile grid

`spectral_decompose_and_dump_jpeg` computes
`x_pass = int(np.ceil(xx / stride))`, `y_pass = int(np.ceil(yy / stride))`
and scans `for x in np.arange(0, xx, stride): for y in np.arange(0, yy, stride)`,
slicing `[y : y + stride, x : x + stride]` (numpy slicing clips at the
array edge). -/

/-- `⌈a / b⌉` over naturals: the grid extent `int(np.ceil(len / stride))`. -/
def ceilDiv (a b : ℕ) : ℕ := (a + b - 1) / b

/-- The start offsets `np.arange(0, len, stride)` of the scan in one
dimension: `0, S, 2·S, …` below `len`. -/
def tileStarts (len S : ℕ) : List ℕ := (List.range (ceilDiv len S)).map (· * S)

/-- A tile of the scan grid, identified by its start corner `(x, y)`. -/
structure Tile where
  x : ℕ
  y : ℕ
  deriving DecidableEq, Repr

/-- The scan order of `spectral_decompose_and_dump_jpeg`: outer loop over
`x`, inner loop over `y` (x-major, y-minor). -/
def gridTiles (W H S : ℕ) : List Tile :=
  (tileStarts W S).flatMap (fun x => (tileStarts H S).map (fun y => ⟨x, y⟩))

/-- The pixel `(px, py)` lies in tile `t` of an `H × W` image scanned with
stride `S`; the tile's extent is clipped at the image edges exactly as the
numpy slice `[y : y + S, x : x + S]` clips. -/
def inTile (W H S : ℕ) (t : Tile) (p : ℕ × ℕ) : Prop :=
  t.x ≤ p.1 ∧ p.1 < min (t.x + S) W ∧ t.y ≤ p.2 ∧ p.2 < min (t.y + S) H

instance (W H S : ℕ) (t : Tile) (p : ℕ × ℕ) : Decidable (inTile W H S t p) := by
  unfold inTile; infer_instance

/-- The column indices of the clipped numpy slice `[x : x + S]` of a row of
width `W`. -/
def sliceIdx (len S start : ℕ) : List ℕ :=
  (List.range (min (start + S) len - start)).map (start + ·)

/-- The pixel coordinates `(px, py)` of the clipped section
`[y : y + S, x : x + S]` of an `H × W` map. -/
def sectionPixels (W H S x y : ℕ) : List (ℕ × ℕ) :=
  (sliceIdx W S x).flatMap (fun px => (sliceIdx H S y).map (fun py => (px, py)))

/-! ## Per-tile statistics

Raw mode: `section = raw_DAB[y : y + stride, x : x + stride] < raw_threshold`
then `np.mean(section) > raw_pc`.  `np.mean` of the boolean section is the
count of pixels below the threshold divided by the number of pixels of the
(possibly clipped) section.

Differential mode: `diff = np.abs(section[:, :, 0] - section[:, :, 2])`
then `np.sum(diff > threshold) / (stride**2) > pc` — the denominator is
`stride²`, whatever the clipped section's size. -/

/-- Raw-mode activation statistic of the tile starting at `(x, y)`:
`np.mean(raw_DAB[y : y + S, x : x + S] < rth)` for the raw-signal map
`f : column → row → value`. -/
def rawStat (f : ℕ → ℕ → ℚ) (rth : ℚ) (W H S x y : ℕ) : ℚ :=
  ((sectionPixels W H S x y).countP (fun p => decide (f p.1 p.2 < rth)) : ℚ) /
    ((sectionPixels W H S x y).length : ℚ)

/-- Differential-mode statistic of the tile starting at `(x, y)`:
`np.sum(np.abs(c0 - c2) > cth) / (S ** 2)` over the clipped section of the
colour-mapped signal with channel planes `c0`, `c2`. -/
def diffStat (c0 c2 : ℕ → ℕ → ℚ) (cth : ℚ) (W H S x y : ℕ) : ℚ :=
  ((sectionPixels W H S x y).countP
      (fun p => decide (|c0 p.1 p.2 - c2 p.1 p.2| > cth)) : ℚ) /
    ((S : ℚ) ^ 2)

/-- Differential-mode inclusion decision of the tile starting at `(x, y)`:
`np.sum(diff > threshold) / (stride**2) > pc`. -/
def diffIncluded (c0 c2 : ℕ → ℕ → ℚ) (cth pc : ℚ) (W H S x y : ℕ) : Bool :=
  decide (diffStat c0 c2 cth W H S x y > pc)

/-! ## JPEG dump loop

Both branches of `spectral_decompose_and_dump_jpeg` share one loop shape:
a `dump_number` ticker starts at `0`; each tile of the scan, in grid
order, is tested with a strict `>` against the fraction threshold; on
success the crop is written as `{prefix}{dump_number}.jpg` and the ticker
is incremented. -/

/-- The dump loop: fold over the tiles in scan order with the
`dump_number` ticker, emitting `(dump_number, tile)` for each included
tile. -/
def dumpLoop (inc : Tile → Bool) : List Tile → ℕ → List (ℕ × Tile)
  | [], _ => []
  | t :: ts, n => if inc t then (n, t) :: dumpLoop inc ts (n + 1) else dumpLoop inc ts n

/-- The crops written for one slide: the dump loop over the whole grid,
ticker starting at `0`. -/
def dumpedCrops (inc : Tile → Bool) (W H S : ℕ) : List (ℕ × Tile) :=
  dumpLoop inc (gridTiles W H S) 0

/-- The densities array returned by `spectral_decompose_and_dump_jpeg`:
`densities = np.zeros((y_pass, x_pass))` is created before the scan, is
never assigned to in either scan loop, and is returned unchanged. -/
def densitiesReturned (H W S : ℕ) : List (List ℚ) :=
  List.replicate (ceilDiv H S) (List.replicate (ceilDiv W S) 0)

/-! ## `normalise`

```python
def normalise(F):
    F += max(np.abs(F.min()), np.abs(F.max()))
    F /= F.max()
    return F
```

`F.min()` / `F.max()` range over all entries of the array whatever its
shape; `+=` and `/=` are elementwise in-place updates of the argument
buffer, and the second `F.max()` is taken after the shift. -/

/-- All entries of a 2D array, in row-major order. -/
def vals (F : List (List ℚ)) : List ℚ := F.flatMap id

/-- `F.min()` over a nonempty list of entries (junk `0` on the empty list). -/
def minV : List ℚ → ℚ
  | [] => 0
  | [a] => a
  | a :: b :: t => min a (minV (b :: t))

/-- `F.max()` over a nonempty list of entries (junk `0` on the empty list). -/
def maxV : List ℚ → ℚ
  | [] => 0
  | [a] => a
  | a :: b :: t => max a (maxV (b :: t))

/-- The shift `max(np.abs(F.min()), np.abs(F.max()))` added to every entry. -/
def shiftOf (F : List (List ℚ)) : ℚ := max |minV (vals F)| |maxV (vals F)|

/-- Elementwise map over a 2D array. -/
def map2 (g : ℚ → ℚ) (F : List (List ℚ)) : List (List ℚ) := F.map (List.map g)

/-- The value computed by `normalise`: shift every entry by
`max(|min|, |max|)`, then divide by the maximum of the shifted array. -/
def normalise (F : List (List ℚ)) : List (List ℚ) :=
  let s := shiftOf F
  let shifted := map2 (· + s) F
  map2 (· / maxV (vals shifted)) shifted

/-- The state of `normalise`'s argument buffer after the call: `F += …` and
`F /= …` update the argument in place, so the caller's array ends up
holding the returned value, not its original contents. -/
def normaliseArgAfter (F : List (List ℚ)) : List (List ℚ) := normalise F

/-- The scalar function `normalise` applies to each entry of `F` (used to
state order preservation and the closed form of the result). -/
def normaliseEntry (F : List (List ℚ)) (a : ℚ) : ℚ :=
  (a + shiftOf F) / (maxV (vals F) + shiftOf F)

/-! ## Mask building

```python
DAB = normalise(T_x[0][0].copy())
BT = normalise(T_x[0][3].copy())
raw_DAB = DAB - BT
…  section = raw_DAB[…] < raw_threshold
```

The weight maps are passed to `normalise` as `.copy()`s, so the arrays in
`T_x` are untouched; the subtraction and comparison allocate new arrays.
The heap effect is modelled by returning, next to the results, the
post-call state of the two input buffers. -/

/-- Elementwise difference of two 2D arrays. -/
def sub2 (A B : List (List ℚ)) : List (List ℚ) :=
  List.zipWith (List.zipWith (· - ·)) A B

/-- Elementwise threshold mask `raw < th` of a 2D array. -/
def ltMask2 (th : ℚ) (A : List (List ℚ)) : List (List Bool) :=
  A.map (List.map (fun a => decide (a < th)))

/-- The mask-building step on the target and background weight maps:
normalise copies of the two inputs, subtract, threshold.  The first
component is the post-call state of the two argument buffers (`normalise`
only ever sees the copies); the second is the `(raw signal, mask)` result. -/
def buildMask (t b : List (List ℚ)) (rth : ℚ) :
    (List (List ℚ) × List (List ℚ)) × (List (List ℚ) × List (List Bool)) :=
  let dab := normalise t
  let bt := normalise b
  let raw := sub2 dab bt
  ((t, b), (raw, ltMask2 rth raw))

/-! ## Batched least-squares unmixing

```python
T_I = image.reshape((H * W, 3))
T_x = np.linalg.lstsq(responses.T, T_I.T, rcond=None)
```

`responses` is the fixed 5 × 3 chromophore response matrix, so
`responses.T` is 3 × 5 and each pixel's weight vector solves a 3-equation
/ 5-unknown system.  `np.linalg.lstsq` is external library code; it is
modelled by its documented contract: for each right-hand side it returns
the least-squares solution of minimum Euclidean norm.  Norm comparisons
are phrased through the (squared-norm) sum of squares, which stays in `ℚ`. -/

/-- The sensor-specific 5 × 3 response matrix hard-coded in
`spectral_decompose_and_dump_jpeg` (rows: DAB, Hematoxylin, Light Source,
Brain Transmission, Eosin). -/
def responses : Fin 5 → Fin 3 → ℚ :=
  ![![7.10357511, 12.61506218, 13.59695489],
    ![8.81961536, 10.18302502, 5.08567669],
    ![11.02074647, 15.41804066, 12.77042165],
    ![17.05035857, 17.64819458, 9.17788779],
    ![0.45574971, 4.32897163, 1.68161384]]

/-- `responses.T · w`: the sensor channel triple produced by mixing the
five chromophore rows with weights `w`. -/
def mixPixel (w : Fin 5 → ℚ) : Fin 3 → ℚ :=
  fun i => ∑ j, w j * responses j i

/-- Squared Euclidean norm of a vector over `ℚ`. -/
def sqNorm {n : ℕ} (v : Fin n → ℚ) : ℚ := ∑ i, (v i) ^ 2

/-- Modelled from the spec: `np.linalg.lstsq(responses.T, b)` (library code,
not in the notebooks) returns a least-squares solution of the system
`responses.T · x = b` that has minimum norm among all least-squares
solutions.  `IsLstsqSol b x` states that `x` is such a solution for the
right-hand side `b`. -/
def IsLstsqSol (b : Fin 3 → ℚ) (x : Fin 5 → ℚ) : Prop :=
  (∀ y : Fin 5 → ℚ,
      sqNorm (fun i => mixPixel x i - b i) ≤ sqNorm (fun i => mixPixel y i - b i)) ∧
  (∀ y : Fin 5 → ℚ,
      (∀ z : Fin 5 → ℚ,
          sqNorm (fun i => mixPixel y i - b i) ≤ sqNorm (fun i => mixPixel z i - b i)) →
      sqNorm x ≤ sqNorm y)

/-- A nonzero exact rational vector in the kernel of `responses.T`:
mixing the five chromophore rows with these weights produces the zero
pixel. -/
def kerVec : Fin 5 → ℚ :=
  ![24944323517004768899251571, 13699850177410796787093916,
    -36328568004894752136904699, 6002610001094250058167528, 0]

/-! ## Per-slide `process` and the batch driver

```python
def process(argv):
    file = argv["file"]; cnd = argv["condition"]; simulated = argv["sim"]
    try:
        file_name = os.path.basename(os.path.normpath(file))
        slide = AperioSlide(file) if not simulated else SyntheticSlide(file)
    except:
        return file
    d = spectral_decompose_and_dump_jpeg(slide, …)
    with open(f'…/{file_name}.npy', "wb") as f: np.save(f, d)
    return file

result = pqdm(files_list_and_configuration, process, n_jobs=1)
```

Slide opening is modelled as an `Option`-valued oracle; the downstream
pipeline run (crop writes plus the returned densities) is a parameter, so
the model covers any slide contents.  `process` returns the file path on
both the failure path and the success path. -/

/-- One entry of `files_list_and_configuration`. -/
structure SlideJob where
  file : String
  condition : String
  sim : Bool

/-- The `process` function for one slide: on open failure, perform no
writes and return the file path; on success, perform the pipeline's crop
writes, then the `.npy` density write, and return the file path.  The
first component collects the file names written, the second is the value
`process` returns. -/
def processSlide {α : Type} (openSlide : String → Option α)
    (runPipeline : α → List String × List (List ℚ)) (job : SlideJob) :
    List String × String :=
  match openSlide job.file with
  | none => ([], job.file)
  | some s => ((runPipeline s).1 ++ [job.file ++ ".npy"], job.file)

/-- The batch driver: `process` applied to every queued slide. -/
def batchProcess {α : Type} (openSlide : String → Option α)
    (runPipeline : α → List String × List (List ℚ)) (jobs : List SlideJob) :
    List (List String × String) :=
  jobs.map (processSlide openSlide runPipeline)

/-! ## Tiling lemmas -/

theorem lt_ceilDiv_iff {S : ℕ} (hS : 0 < S) {k len : ℕ} :
    k < ceilDiv len S ↔ k * S < len := by
  unfold ceilDiv
  rw [Nat.lt_iff_add_one_le, Nat.le_div_iff_mul_le hS, Nat.add_mul, one_mul]
  omega

theorem mem_tileStarts {len S x : ℕ} :
    x ∈ tileStarts len S ↔ ∃ k, k < ceilDiv len S ∧ x = k * S := by
  simp only [tileStarts, List.mem_map, List.mem_range]
  constructor
  · rintro ⟨k, hk, rfl⟩; exact ⟨k, hk, rfl⟩
  · rintro ⟨k, hk, rfl⟩; exact ⟨k, hk, rfl⟩

/-- One-dimensional coverage: every offset `p` below `len` lies in exactly
one scan window `[x, x + S)` with `x` a generated start. -/
theorem tileStarts_cover {len S : ℕ} (hS : 0 < S) {p : ℕ} (hp : p < len) :
    ∃! x, x ∈ tileStarts len S ∧ x ≤ p ∧ p < x + S := by
  have hmod := Nat.div_add_mod p S
  have hlt : p % S < S := Nat.mod_lt _ hS
  refine ⟨p / S * S, ⟨?_, ?_, ?_⟩, ?_⟩
  · exact mem_tileStarts.mpr ⟨p / S, (lt_ceilDiv_iff hS).mpr
      (lt_of_le_of_lt (Nat.div_mul_le_self p S) hp), rfl⟩
  · exact Nat.div_mul_le_self p S
  · have hc : p / S * S = S * (p / S) := Nat.mul_comm _ _
    omega
  · rintro x ⟨hx, hle, hlt'⟩
    rcases mem_tileStarts.mp hx with ⟨k, -, rfl⟩
    have hk : p / S = k :=
      Nat.div_eq_of_lt_le hle (by rw [Nat.succ_mul]; omega)
    rw [hk]

theorem mem_gridTiles {W H S : ℕ} {t : Tile} :
    t ∈ gridTiles W H S ↔ t.x ∈ tileStarts W S ∧ t.y ∈ tileStarts H S := by
  simp only [gridTiles, List.mem_flatMap, List.mem_map]
  constructor
  · rintro ⟨x, hx, y, hy, rfl⟩; exact ⟨hx, hy⟩
  · rintro ⟨hx, hy⟩; exact ⟨t.x, hx, t.y, hy, rfl⟩

theorem flatMap_tile_length (l₁ l₂ : List ℕ) :
    (l₁.flatMap (fun x => l₂.map (fun y => Tile.mk x y))).length =
      l₁.length * l₂.length := by
  induction l₁ with
  | nil => simp
  | cons a l ih => simp [List.flatMap_cons, ih, Nat.succ_mul, Nat.add_comm]

theorem gridTiles_length {W H S : ℕ} :
    (gridTiles W H S).length = ceilDiv W S * ceilDiv H S := by
  rw [gridTiles, flatMap_tile_length]
  simp [tileStarts]

theorem inTile_lt {W H S : ℕ} {t : Tile} {p : ℕ × ℕ}
    (h : inTile W H S t p) : p.1 < W ∧ p.2 < H :=
  ⟨lt_of_lt_of_le h.2.1 (min_le_right _ _),
   lt_of_lt_of_le h.2.2.2 (min_le_right _ _)⟩

/-- Two-dimensional coverage: every pixel of the image lies in exactly one
grid tile. -/
theorem gridTiles_cover {W H S : ℕ} (hS : 0 < S) {p : ℕ × ℕ}
    (h1 : p.1 < W) (h2 : p.2 < H) :
    ∃! t, t ∈ gridTiles W H S ∧ inTile W H S t p := by
  obtain ⟨x, ⟨hxm, hxle, hxlt⟩, hxu⟩ := tileStarts_cover hS h1
  obtain ⟨y, ⟨hym, hyle, hylt⟩, hyu⟩ := tileStarts_cover hS h2
  refine ⟨⟨x, y⟩, ⟨mem_gridTiles.mpr ⟨hxm, hym⟩,
    hxle, lt_min hxlt h1, hyle, lt_min hylt h2⟩, ?_⟩
  rintro ⟨x', y'⟩ ⟨hm, hle, hlt, hle', hlt'⟩
  have hx' : x' = x := hxu x' ⟨(mem_gridTiles.mp hm).1, hle, (lt_min_iff.mp hlt).1⟩
  have hy' : y' = y := hyu y' ⟨(mem_gridTiles.mp hm).2, hle', (lt_min_iff.mp hlt').1⟩
  simp [hx', hy']

/-- C5 helper: distinct grid tiles never share a pixel. -/
theorem gridTiles_disjoint {W H S : ℕ} (hS : 0 < S) {t₁ t₂ : Tile}
    (h₁ : t₁ ∈ gridTiles W H S) (h₂ : t₂ ∈ gridTiles W H S) (hne : t₁ ≠ t₂)
    (p : ℕ × ℕ) : ¬(inTile W H S t₁ p ∧ inTile W H S t₂ p) := by
  rintro ⟨ha, hb⟩
  obtain ⟨hpw, hph⟩ := inTile_lt ha
  obtain ⟨t, -, hu⟩ := gridTiles_cover hS hpw hph
  exact hne ((hu t₁ ⟨h₁, ha⟩).trans (hu t₂ ⟨h₂, hb⟩).symm)

/-- **C5.** For every image of height `H`, width `W` and positive stride
`S`, the tile enumeration of `spectral_decompose_and_dump_jpeg` visits
exactly `⌈W/S⌉ · ⌈H/S⌉` tiles, each tile's pixels are clipped inside the
image, the tiles are pairwise disjoint, and every pixel of the `H × W`
domain lies in exactly one visited tile (no gaps, no overlaps, with
partial boundary tiles kept). -/
theorem tile_grid_partitions (W H S : ℕ) (hS : 0 < S) :
    (gridTiles W H S).length = ceilDiv W S * ceilDiv H S ∧
    (∀ t ∈ gridTiles W H S, ∀ p : ℕ × ℕ, inTile W H S t p → p.1 < W ∧ p.2 < H) ∧
    (∀ p : ℕ × ℕ, p.1 < W → p.2 < H →
      ∃! t, t ∈ gridTiles W H S ∧ inTile W H S t p) ∧
    (∀ t₁ ∈ gridTiles W H S, ∀ t₂ ∈ gridTiles W H S, t₁ ≠ t₂ →
      ∀ p : ℕ × ℕ, ¬(inTile W H S t₁ p ∧ inTile W H S t₂ p)) :=
  ⟨gridTiles_length,
   fun _ _ _ h => inTile_lt h,
   fun _ h1 h2 => gridTiles_cover hS h1 h2,
   fun _ h₁ _ h₂ hne p => gridTiles_disjoint hS h₁ h₂ hne p⟩

/-- **C5 witness**: the grid of a 5 × 3 image with stride 2. -/
theorem tile_grid_partitions_witness :
    0 < 2 ∧
    ((gridTiles 5 3 2).length = ceilDiv 5 2 * ceilDiv 3 2 ∧
    (∀ t ∈ gridTiles 5 3 2, ∀ p : ℕ × ℕ, inTile 5 3 2 t p → p.1 < 5 ∧ p.2 < 3) ∧
    (∀ p : ℕ × ℕ, p.1 < 5 → p.2 < 3 →
      ∃! t, t ∈ gridTiles 5 3 2 ∧ inTile 5 3 2 t p) ∧
    (∀ t₁ ∈ gridTiles 5 3 2, ∀ t₂ ∈ gridTiles 5 3 2, t₁ ≠ t₂ →
      ∀ p : ℕ × ℕ, ¬(inTile 5 3 2 t₁ p ∧ inTile 5 3 2 t₂ p))) :=
  ⟨by decide, tile_grid_partitions 5 3 2 (by decide)⟩

/-! ## Dump loop lemmas -/

theorem dumpLoop_eq (inc : Tile → Bool) :
    ∀ (l : List Tile) (n : ℕ),
      dumpLoop inc l n = (List.range' n (l.countP inc)).zip (l.filter inc) := by
  intro l
  induction l with
  | nil => intro n; simp [dumpLoop]
  | cons t ts ih =>
    intro n
    by_cases h : inc t
    · simp [dumpLoop, h, List.countP_cons, List.filter_cons, ih, List.range'_succ]
    · simp [dumpLoop, h, List.countP_cons, List.filter_cons, ih]

/-- **C6.** For every slide, a crop is dumped exactly for the tiles whose
activation statistic is strictly greater than the fraction threshold
(ties are excluded); the dumps pair the included tiles, in grid scan
order, with indices `0, 1, 2, …` (one increment per written file), so the
number of crops equals the number of included tiles. -/
theorem crops_are_included_tiles (stat : Tile → ℚ) (pc : ℚ) (W H S : ℕ) :
    dumpedCrops (fun t => decide (stat t > pc)) W H S =
      (List.range ((gridTiles W H S).countP (fun t => decide (stat t > pc)))).zip
        ((gridTiles W H S).filter (fun t => decide (stat t > pc))) ∧
    (dumpedCrops (fun t => decide (stat t > pc)) W H S).map Prod.fst =
      List.range
        (((gridTiles W H S).filter (fun t => decide (stat t > pc))).length) ∧
    (dumpedCrops (fun t => decide (stat t > pc)) W H S).map Prod.snd =
      (gridTiles W H S).filter (fun t => decide (stat t > pc)) ∧
    (∀ t : Tile,
      t ∈ ((gridTiles W H S).filter (fun t => decide (stat t > pc))) ↔
        t ∈ gridTiles W H S ∧ stat t > pc) ∧
    (dumpedCrops (fun t => decide (stat t > pc)) W H S).length =
      (gridTiles W H S).countP (fun t => decide (stat t > pc)) := by
  have hcount : (gridTiles W H S).countP (fun t => decide (stat t > pc)) =
      ((gridTiles W H S).filter (fun t => decide (stat t > pc))).length :=
    (gridTiles W H S).countP_eq_length_filter _
  have hzip := dumpLoop_eq (fun t => decide (stat t > pc)) (gridTiles W H S) 0
  rw [← List.range_eq_range'] at hzip
  refine ⟨hzip, ?_, ?_, ?_, ?_⟩
  · rw [dumpedCrops, hzip, hcount, List.map_fst_zip]
    simp
  · rw [dumpedCrops, hzip, List.map_snd_zip]
    simp [hcount]
  · intro t
    simp [List.mem_filter]
  · rw [dumpedCrops, hzip, List.length_zip]
    simp [hcount]

/-! ## Section statistics lemmas -/

theorem sliceIdx_length (len S start : ℕ) :
    (sliceIdx len S start).length = min (start + S) len - start := by
  simp [sliceIdx]

theorem flatMap_pair_length (l₁ l₂ : List ℕ) :
    (l₁.flatMap (fun a => l₂.map (fun b => (a, b)))).length =
      l₁.length * l₂.length := by
  induction l₁ with
  | nil => simp
  | cons a l ih => simp [List.flatMap_cons, ih, Nat.succ_mul, Nat.add_comm]

theorem sectionPixels_length (W H S x y : ℕ) :
    (sectionPixels W H S x y).length =
      (min (x + S) W - x) * (min (y + S) H - y) := by
  rw [sectionPixels, flatMap_pair_length, sliceIdx_length, sliceIdx_length]

theorem count_div_unit {c n : ℕ} (h : c ≤ n) :
    0 ≤ (c : ℚ) / (n : ℚ) ∧ (c : ℚ) / (n : ℚ) ≤ 1 := by
  rcases Nat.eq_zero_or_pos n with h0 | hpos
  · have : c = 0 := by omega
    simp [this, h0]
  · have hn : (0 : ℚ) < n := by exact_mod_cast hpos
    exact ⟨div_nonneg (by positivity) hn.le,
      (div_le_one hn).mpr (by exact_mod_cast h)⟩

/-- **C10.** In raw mode the activation statistic of every tile — partial
boundary tiles included — is the count of section pixels whose raw signal
is below the raw threshold divided by the number of pixels actually in
the clipped section (not by `stride²`), hence always lies in `[0, 1]`;
the differential-mode statistic instead divides its count by `stride²`
regardless of the clipped section's size. -/
theorem raw_stat_clipped_denominator (f c0 c2 : ℕ → ℕ → ℚ) (rth cth : ℚ)
    (W H S x y : ℕ) (hS : 0 < S) (hx : x < W) (hy : y < H) :
    0 < (min (x + S) W - x) * (min (y + S) H - y) ∧
    rawStat f rth W H S x y =
      ((sectionPixels W H S x y).countP (fun p => decide (f p.1 p.2 < rth)) : ℚ) /
        (((min (x + S) W - x) * (min (y + S) H - y) : ℕ) : ℚ) ∧
    0 ≤ rawStat f rth W H S x y ∧ rawStat f rth W H S x y ≤ 1 ∧
    diffStat c0 c2 cth W H S x y =
      ((sectionPixels W H S x y).countP
          (fun p => decide (|c0 p.1 p.2 - c2 p.1 p.2| > cth)) : ℚ) / ((S : ℚ) ^ 2) := by
  have hpos : 0 < (min (x + S) W - x) * (min (y + S) H - y) :=
    Nat.mul_pos (by omega) (by omega)
  have hbounds := count_div_unit
    (List.countP_le_length (p := fun p : ℕ × ℕ => decide (f p.1 p.2 < rth))
      (l := sectionPixels W H S x y))
  refine ⟨hpos, ?_, ?_, ?_, rfl⟩
  · rw [rawStat, sectionPixels_length]
  · simpa [rawStat] using hbounds.1
  · simpa [rawStat] using hbounds.2

/-- **C10 witness**: the bottom-right partial tile of a 3 × 3 image with
stride 2, starting at `(2, 2)`, on the constant `−1` raw-signal map with
raw threshold `−0.3`. -/
theorem raw_stat_clipped_denominator_witness :
    0 < 2 ∧ 2 < 3 ∧
    (0 < (min (2 + 2) 3 - 2) * (min (2 + 2) 3 - 2) ∧
    rawStat (fun _ _ => -1) (-0.3) 3 3 2 2 2 =
      ((sectionPixels 3 3 2 2 2).countP
          (fun p => decide ((fun _ _ => (-1 : ℚ)) p.1 p.2 < -0.3)) : ℚ) /
        (((min (2 + 2) 3 - 2) * (min (2 + 2) 3 - 2) : ℕ) : ℚ) ∧
    0 ≤ rawStat (fun _ _ => -1) (-0.3) 3 3 2 2 2 ∧
    rawStat (fun _ _ => -1) (-0.3) 3 3 2 2 2 ≤ 1 ∧
    diffStat (fun _ _ => 0) (fun _ _ => 0) 0.175 3 3 2 2 2 =
      ((sectionPixels 3 3 2 2 2).countP
          (fun p => decide (|(fun _ _ => (0 : ℚ)) p.1 p.2 -
            (fun _ _ => (0 : ℚ)) p.1 p.2| > 0.175)) : ℚ) / ((2 : ℚ) ^ 2)) :=
  ⟨by decide, by decide,
    raw_stat_clipped_denominator (fun _ _ => -1) (fun _ _ => 0) (fun _ _ => 0)
      (-0.3) 0.175 3 3 2 2 2 (by decide) (by decide) (by decide)⟩

/-! ## Differential-mode inclusion (C4) -/

/-- **C4 counterexample.** A 1 × 1 image scanned with stride 2: the single
(clipped) tile has one pixel, whose `|channel0 − channel2|` exceeds the
colour threshold `1/2`, so the fraction over the pixels actually in the
clipped tile is `1 > 1/2` and the claim says the tile is included; the
code computes `1 / stride² = 1/4 ≯ 1/2` and excludes it. -/
theorem diff_inclusion_claim_false :
    diffIncluded (fun _ _ => 1) (fun _ _ => 0) (1 / 2) (1 / 2) 1 1 2 0 0 = false ∧
    ((sectionPixels 1 1 2 0 0).countP
        (fun p => decide (|(fun _ _ => (1 : ℚ)) p.1 p.2 -
          (fun _ _ => (0 : ℚ)) p.1 p.2| > 1 / 2)) : ℚ) /
      ((sectionPixels 1 1 2 0 0).length : ℚ) > 1 / 2 := by
  have hsec : sectionPixels 1 1 2 0 0 = [(0, 0)] := rfl
  constructor
  · rw [diffIncluded, decide_eq_false_iff_not, diffStat, hsec]
    norm_num [List.countP_cons, List.countP_nil]
  · rw [hsec]
    norm_num [List.countP_cons, List.countP_nil]

/-- **C4 amended.** In differential mode, a tile — partial boundary tiles
included — is included exactly when the count of its clipped section's
pixels with `|channel0 − channel2|` above the per-pixel colour threshold,
divided by `stride²` (not by the clipped pixel count), is strictly
greater than the area-fraction threshold. -/
theorem diff_inclusion_stride_squared (c0 c2 : ℕ → ℕ → ℚ) (cth pc : ℚ)
    (W H S x y : ℕ) :
    diffIncluded c0 c2 cth pc W H S x y = true ↔
      ((sectionPixels W H S x y).countP
          (fun p => decide (|c0 p.1 p.2 - c2 p.1 p.2| > cth)) : ℚ) /
        ((S : ℚ) ^ 2) > pc := by
  simp [diffIncluded, diffStat]

/-! ## Density map (C1) -/

/-- **C1.** The density map returned by `spectral_decompose_and_dump_jpeg`
has the claimed grid shape but holds `0` in every cell for every input:
`densities` is never assigned in either scan loop.  At the failing input —
a 1 × 1 slide of constant raw signal `−1`, stride 1, raw threshold `−0.3`
— tile `(0, 0)` has activation fraction `1`, yet the returned map is
`[[0]]`. -/
theorem density_map_never_written :
    (∀ H W S : ℕ,
      (densitiesReturned H W S).length = ceilDiv H S ∧
      ∀ row ∈ densitiesReturned H W S,
        row.length = ceilDiv W S ∧ ∀ a ∈ row, a = 0) ∧
    densitiesReturned 1 1 1 = [[0]] ∧
    rawStat (fun _ _ => -1) (-0.3) 1 1 1 0 0 = 1 ∧
    (0 : ℚ) ≠ 1 := by
  refine ⟨?_, rfl, ?_, by norm_num⟩
  · intro H W S
    refine ⟨by simp [densitiesReturned], ?_⟩
    intro row hrow
    rcases List.eq_of_mem_replicate hrow with rfl
    exact ⟨by simp, fun a ha => List.eq_of_mem_replicate ha⟩
  · have hsec : sectionPixels 1 1 1 0 0 = [(0, 0)] := rfl
    rw [rawStat, hsec]
    norm_num [List.countP_cons, List.countP_nil]

/-! ## Per-slide `process` (C2) -/

/-- **C2 counterexample.** `process` returns the bare file path on the
open-failure path and on the success path alike, so the batch report
cannot distinguish a failed slide from a successful one with the same
path (it does, however, write nothing for the failed slide). -/
theorem process_report_indistinguishable :
    (processSlide (fun _ => (none : Option Unit)) (fun _ => ([], []))
        ⟨"slide.svs", "PD", true⟩).2 =
      (processSlide (fun _ => some ()) (fun _ => ([], []))
        ⟨"slide.svs", "PD", true⟩).2 ∧
    (processSlide (fun _ => (none : Option Unit)) (fun _ => ([], []))
        ⟨"slide.svs", "PD", true⟩).1 = [] :=
  ⟨rfl, rfl⟩

/-- **C2 amended.** A slide whose open fails produces no crop write and no
density write and does not abort the batch: every queued slide yields its
own report entry, computed independently of the other slides.  The
per-file report, however, is the slide's path on the failure path and on
the success path alike, so it does not distinguish failed slides from
successful ones. -/
theorem process_failure_isolated {α : Type} (openSlide : String → Option α)
    (runPipeline : α → List String × List (List ℚ)) (job : SlideJob)
    (h : openSlide job.file = none) (jobs : List SlideJob) :
    processSlide openSlide runPipeline job = ([], job.file) ∧
    (batchProcess openSlide runPipeline jobs).length = jobs.length ∧
    (∀ j : SlideJob, (processSlide openSlide runPipeline j).2 = j.file) ∧
    (∀ i : ℕ, (batchProcess openSlide runPipeline jobs).get? i =
      (jobs.get? i).map (processSlide openSlide runPipeline)) := by
  refine ⟨?_, by simp [batchProcess], ?_, ?_⟩
  · simp [processSlide, h]
  · intro j; cases hj : openSlide j.file <;> simp [processSlide, hj]
  · intro i; simp [batchProcess]

/-- **C2 witness**: a two-slide batch whose opens all fail. -/
theorem process_failure_isolated_witness :
    ((fun _ => (none : Option Unit)) "a.svs" = none) ∧
    (processSlide (fun _ => (none : Option Unit)) (fun _ => ([], []))
        ⟨"a.svs", "PD", true⟩ = ([], "a.svs") ∧
    (batchProcess (fun _ => (none : Option Unit)) (fun _ => ([], []))
        [⟨"a.svs", "PD", true⟩, ⟨"b.svs", "Controls", true⟩]).length =
      [⟨"a.svs", "PD", true⟩, (⟨"b.svs", "Controls", true⟩ : SlideJob)].length ∧
    (∀ j : SlideJob,
      (processSlide (fun _ => (none : Option Unit)) (fun _ => ([], [])) j).2 =
        j.file) ∧
    (∀ i : ℕ,
      (batchProcess (fun _ => (none : Option Unit)) (fun _ => ([], []))
          [⟨"a.svs", "PD", true⟩, ⟨"b.svs", "Controls", true⟩]).get? i =
        ([⟨"a.svs", "PD", true⟩, (⟨"b.svs", "Controls", true⟩ : SlideJob)].get? i).map
          (processSlide (fun _ => (none : Option Unit)) (fun _ => ([], []))))) :=
  ⟨rfl, process_failure_isolated (fun _ => (none : Option Unit))
    (fun _ => ([], [])) ⟨"a.svs", "PD", true⟩ rfl
    [⟨"a.svs", "PD", true⟩, ⟨"b.svs", "Controls", true⟩]⟩

/-! ## `normalise` lemmas -/

theorem le_maxV {a : ℚ} : ∀ (l : List ℚ), a ∈ l → a ≤ maxV l
  | [b], h => by
    rcases List.mem_singleton.mp h with rfl
    simp [maxV]
  | b :: c :: t, h => by
    rcases List.mem_cons.mp h with rfl | h'
    · simp [maxV]
    · exact le_trans (le_maxV (c :: t) h') (by simp [maxV])

theorem minV_le {a : ℚ} : ∀ (l : List ℚ), a ∈ l → minV l ≤ a
  | [b], h => by
    rcases List.mem_singleton.mp h with rfl
    simp [minV]
  | b :: c :: t, h => by
    rcases List.mem_cons.mp h with rfl | h'
    · simp [minV]
    · exact le_trans (by simp [minV]) (minV_le (c :: t) h')

theorem maxV_mem : ∀ (l : List ℚ), l ≠ [] → maxV l ∈ l
  | [b], _ => by simp [maxV]
  | b :: c :: t, _ => by
    rw [show maxV (b :: c :: t) = max b (maxV (c :: t)) from rfl]
    rcases le_total (maxV (c :: t)) b with h | h
    · simp [max_eq_left h]
    · have := maxV_mem (c :: t) (by simp)
      simp only [max_eq_right h, List.mem_cons] at this ⊢
      tauto

theorem minV_mem : ∀ (l : List ℚ), l ≠ [] → minV l ∈ l
  | [b], _ => by simp [minV]
  | b :: c :: t, _ => by
    rw [show minV (b :: c :: t) = min b (minV (c :: t)) from rfl]
    rcases le_total b (minV (c :: t)) with h | h
    · simp [min_eq_left h]
    · have := minV_mem (c :: t) (by simp)
      simp only [min_eq_right h, List.mem_cons] at this ⊢
      tauto

theorem maxV_map {g : ℚ → ℚ} (hg : Monotone g) :
    ∀ (l : List ℚ), l ≠ [] → maxV (l.map g) = g (maxV l)
  | [b], _ => by simp [maxV]
  | b :: c :: t, _ => by
    have ih := maxV_map hg (c :: t) (by simp)
    show max (g b) (maxV ((c :: t).map g)) = g (max b (maxV (c :: t)))
    rw [ih, hg.map_max]

theorem vals_map2 (g : ℚ → ℚ) (F : List (List ℚ)) :
    vals (map2 g F) = (vals F).map g := by
  induction F with
  | nil => rfl
  | cons r F ih => simp_all [vals, map2, List.flatMap_cons]

theorem map2_map2 (g f : ℚ → ℚ) (F : List (List ℚ)) :
    map2 g (map2 f F) = map2 (fun a => g (f a)) F := by
  simp [map2, Function.comp]

theorem shiftOf_nonneg (F : List (List ℚ)) : 0 ≤ shiftOf F :=
  le_trans (abs_nonneg _) (le_max_left _ _)

theorem maxShifted_nonneg (F : List (List ℚ)) :
    0 ≤ maxV (vals F) + shiftOf F := by
  have h : -maxV (vals F) ≤ |maxV (vals F)| := neg_le_abs _
  have h2 : |maxV (vals F)| ≤ shiftOf F := le_max_right _ _
  linarith

theorem add_shift_nonneg {F : List (List ℚ)} {a : ℚ} (h : a ∈ vals F) :
    0 ≤ a + shiftOf F := by
  have h1 : minV (vals F) ≤ a := minV_le _ h
  have h2 : -minV (vals F) ≤ |minV (vals F)| := neg_le_abs _
  have h3 : |minV (vals F)| ≤ shiftOf F := le_max_left _ _
  linarith

theorem maxShifted_eq {F : List (List ℚ)} (h : vals F ≠ []) :
    maxV (vals (map2 (· + shiftOf F) F)) = maxV (vals F) + shiftOf F := by
  rw [vals_map2, maxV_map (fun _ _ hab => by simpa using hab) _ h]

theorem normalise_eq_map2 {F : List (List ℚ)} (h : vals F ≠ []) :
    normalise F = map2 (normaliseEntry F) F := by
  rw [normalise, map2_map2, maxShifted_eq h]
  rfl

theorem normaliseEntry_mono (F : List (List ℚ)) : Monotone (normaliseEntry F) := by
  intro a b hab
  unfold normaliseEntry
  rcases eq_or_lt_of_le (maxShifted_nonneg F) with hM | hM
  · rw [← hM, div_zero, div_zero]
  · exact (div_le_div_iff_of_pos_right hM).mpr (by linarith)

theorem normaliseEntry_bounds {F : List (List ℚ)} {a : ℚ} (h : a ∈ vals F) :
    0 ≤ normaliseEntry F a ∧ normaliseEntry F a ≤ 1 := by
  unfold normaliseEntry
  have hnum : 0 ≤ a + shiftOf F := add_shift_nonneg h
  have hle : a + shiftOf F ≤ maxV (vals F) + shiftOf F := by
    have := le_maxV _ h; linarith
  rcases eq_or_lt_of_le (maxShifted_nonneg F) with hM | hM
  · rw [← hM, div_zero]; norm_num
  · exact ⟨div_nonneg hnum hM.le, (div_le_one hM).mpr hle⟩

/-- **C7 counterexample.** At the constant array `F = [[-1]]` the shift is
`1` and the shifted array is all zeros, so the divisor
`max(F + max(|min F|, |max F|))` of the claimed formula is `0`: the
program's final elementwise division is `0/0`, which produces NaN — a
value outside `[0, 1]` — so the range clause of the claim fails there
(the rational embedding's total division collapses this NaN to `0`). -/
theorem normalise_range_claim_false :
    shiftOf [[(-1 : ℚ)]] = 1 ∧
    map2 (· + shiftOf [[(-1 : ℚ)]]) [[(-1 : ℚ)]] = [[0]] ∧
    maxV (vals (map2 (· + shiftOf [[(-1 : ℚ)]]) [[(-1 : ℚ)]])) = 0 := by
  norm_num [shiftOf, vals, minV, maxV, map2]

/-- **C7 amended.** For every nonempty 2D array `F` whose shifted maximum
`max F + max(|min F|, |max F|)` is positive — every array that is not
constant non-positive, where the program's division is the degenerate
`0/0` — `normalise(F)` is the elementwise map
`a ↦ (a + max(|min F|, |max F|)) / max(F + max(|min F|, |max F|))` — the
shift-then-scale formula of the claim — its values all lie in `[0, 1]`,
and the elementwise map is monotone, so the relative order of the
elements of `F` is preserved. -/
theorem normalise_shift_scale (F : List (List ℚ)) (h : vals F ≠ [])
    (hM : 0 < maxV (vals F) + shiftOf F) :
    normalise F =
      map2 (fun a => (a + shiftOf F) /
        maxV (vals (map2 (· + shiftOf F) F))) F ∧
    (∀ a ∈ vals (normalise F), 0 ≤ a ∧ a ≤ 1) ∧
    (∀ a b : ℚ, a ≤ b → normaliseEntry F a ≤ normaliseEntry F b) ∧
    normalise F = map2 (normaliseEntry F) F := by
  refine ⟨?_, ?_, fun a b hab => normaliseEntry_mono F hab, normalise_eq_map2 h⟩
  · rw [normalise, map2_map2]
  intro a ha
  rw [normalise_eq_map2 h, vals_map2] at ha
  rcases List.mem_map.mp ha with ⟨b, hb, rfl⟩
  exact normaliseEntry_bounds hb

/-- **C7 witness**: the 1 × 2 array `[[0, 1]]`, whose shifted maximum is
`2`. -/
theorem normalise_shift_scale_witness :
    (vals [[(0 : ℚ), 1]] ≠ [] ∧
      0 < maxV (vals [[(0 : ℚ), 1]]) + shiftOf [[(0 : ℚ), 1]]) ∧
    (normalise [[(0 : ℚ), 1]] =
      map2 (fun a => (a + shiftOf [[(0 : ℚ), 1]]) /
        maxV (vals (map2 (· + shiftOf [[(0 : ℚ), 1]]) [[(0 : ℚ), 1]]))) [[(0 : ℚ), 1]] ∧
    (∀ a ∈ vals (normalise [[(0 : ℚ), 1]]), 0 ≤ a ∧ a ≤ 1) ∧
    (∀ a b : ℚ, a ≤ b →
      normaliseEntry [[(0 : ℚ), 1]] a ≤ normaliseEntry [[(0 : ℚ), 1]] b) ∧
    normalise [[(0 : ℚ), 1]] = map2 (normaliseEntry [[(0 : ℚ), 1]]) [[(0 : ℚ), 1]]) :=
  ⟨⟨by simp [vals], by norm_num [vals, maxV, minV, shiftOf]⟩,
    normalise_shift_scale [[(0 : ℚ), 1]] (by simp [vals])
      (by norm_num [vals, maxV, minV, shiftOf])⟩

/-! ## Double normalisation (C8) -/

/-- **C8 counterexample.** For the constant array `F = [[-1]]` the shift is
`1`, so the shifted array is all zeros and its maximum is `0`: the final
division is degenerate (`0/0`, a NaN under numpy, `0` in this embedding)
and `normalise(normalise(F))` has maximum `0`, not `1`. -/
theorem normalise_twice_claim_false :
    maxV (vals (normalise (normalise [[-1]]))) = 0 ∧ (0 : ℚ) ≠ 1 := by
  have h1 : normalise [[-1]] = [[0]] := by
    norm_num [normalise, map2, vals, shiftOf, minV, maxV]
  have h2 : normalise [[(0 : ℚ)]] = [[0]] := by
    norm_num [normalise, map2, vals, shiftOf, minV, maxV]
  rw [h1, h2]
  norm_num [vals, maxV]

/-- **C8 amended.** For every nonempty 2D array `F` whose shifted maximum
`max F + max(|min F|, |max F|)` is positive (every non-degenerate array —
otherwise the final division of `normalise` is `0/0`),
`normalise(normalise(F))` has maximum value exactly `1`, and the double
normalisation is an elementwise monotone map of `F`, so the rank order of
the elements of `F` is preserved. -/
theorem normalise_twice_max_one (F : List (List ℚ)) (h : vals F ≠ [])
    (hM : 0 < maxV (vals F) + shiftOf F) :
    maxV (vals (normalise (normalise F))) = 1 ∧
    (∀ a b : ℚ, a ≤ b →
      normaliseEntry (normalise F) (normaliseEntry F a) ≤
        normaliseEntry (normalise F) (normaliseEntry F b)) ∧
    normalise (normalise F) =
      map2 (fun a => normaliseEntry (normalise F) (normaliseEntry F a)) F := by
  have hvalsG : vals (normalise F) = (vals F).map (normaliseEntry F) := by
    rw [normalise_eq_map2 h, vals_map2]
  have hGne : vals (normalise F) ≠ [] := by
    rw [hvalsG]
    exact fun hc => h (by simpa using hc)
  have hmaxG : maxV (vals (normalise F)) = 1 := by
    rw [hvalsG, maxV_map (normaliseEntry_mono F) _ h]
    unfold normaliseEntry
    exact div_self hM.ne'
  have hminG_nonneg : 0 ≤ minV (vals (normalise F)) := by
    rw [hvalsG]
    have hmem := minV_mem ((vals F).map (normaliseEntry F)) (by simpa using h)
    rcases List.mem_map.mp hmem with ⟨c, hc, heq⟩
    rw [← heq]
    exact (normaliseEntry_bounds hc).1
  have hminG_le : minV (vals (normalise F)) ≤ 1 := by
    rw [← hmaxG]
    exact le_maxV _ (minV_mem _ hGne)
  have hshiftG : shiftOf (normalise F) = 1 := by
    unfold shiftOf
    rw [hmaxG, abs_of_nonneg hminG_nonneg, abs_one]
    exact max_eq_right hminG_le
  refine ⟨?_, ?_, ?_⟩
  · have hv2 : vals (normalise (normalise F)) =
        (vals (normalise F)).map (normaliseEntry (normalise F)) := by
      rw [normalise_eq_map2 hGne, vals_map2]
    rw [hv2, maxV_map (normaliseEntry_mono _) _ hGne]
    unfold normaliseEntry
    rw [hmaxG, hshiftG]
    norm_num
  · intro a b hab
    exact normaliseEntry_mono _ (normaliseEntry_mono _ hab)
  · rw [normalise_eq_map2 hGne, normalise_eq_map2 h, map2_map2]

/-- **C8 witness**: the 1 × 2 array `[[0, 1]]`, whose shifted maximum is
`2`. -/
theorem normalise_twice_max_one_witness :
    (vals [[(0 : ℚ), 1]] ≠ [] ∧ 0 < maxV (vals [[(0 : ℚ), 1]]) + shiftOf [[(0 : ℚ), 1]]) ∧
    (maxV (vals (normalise (normalise [[(0 : ℚ), 1]]))) = 1 ∧
    (∀ a b : ℚ, a ≤ b →
      normaliseEntry (normalise [[(0 : ℚ), 1]]) (normaliseEntry [[(0 : ℚ), 1]] a) ≤
        normaliseEntry (normalise [[(0 : ℚ), 1]]) (normaliseEntry [[(0 : ℚ), 1]] b)) ∧
    normalise (normalise [[(0 : ℚ), 1]]) =
      map2 (fun a => normaliseEntry (normalise [[(0 : ℚ), 1]])
        (normaliseEntry [[(0 : ℚ), 1]] a)) [[(0 : ℚ), 1]]) :=
  ⟨⟨by simp [vals], by norm_num [vals, maxV, minV, shiftOf]⟩,
    normalise_twice_max_one [[(0 : ℚ), 1]] (by simp [vals])
      (by norm_num [vals, maxV, minV, shiftOf])⟩

/-! ## Frame behaviour of mask building (C9) -/

/-- **C9 counterexample.** `normalise` does mutate its argument: `F += …`
and `F /= …` update the buffer in place, so after `normalise([[0, 1]])`
the argument holds `[[1/2, 1]]`, not its original `[[0, 1]]`. -/
theorem normalise_mutates_argument :
    normaliseArgAfter [[0, 1]] ≠ [[0, 1]] := by
  have h : normaliseArgAfter [[0, 1]] = [[1 / 2, 1]] := by
    norm_num [normaliseArgAfter, normalise, map2, vals, shiftOf, minV, maxV]
  rw [h]
  simp only [ne_eq, List.cons.injEq, and_true]
  norm_num

/-- **C9 amended.** The mask-building step leaves the two weight-map
inputs unchanged after the call — because the call sites pass `.copy()`s
into `normalise` — and for identical inputs it returns the identical
`(rawSignalMap, mask)` pair, computed as the thresholded difference of the
two normalised copies; `normalise` itself, however, mutates its argument
buffer in place, leaving it equal to the returned array. -/
theorem buildMask_pure_on_inputs (t b : List (List ℚ)) (rth : ℚ) :
    (buildMask t b rth).1 = (t, b) ∧
    (buildMask t b rth).2 =
      (sub2 (normalise t) (normalise b),
        ltMask2 rth (sub2 (normalise t) (normalise b))) ∧
    (∀ F : List (List ℚ), normaliseArgAfter F = normalise F) :=
  ⟨rfl, rfl, fun _ => rfl⟩

/-! ## Batched least-squares unmixing (C3) -/

theorem sqNorm_nonneg {n : ℕ} (v : Fin n → ℚ) : 0 ≤ sqNorm v :=
  Finset.sum_nonneg fun _ _ => sq_nonneg _

theorem sqNorm_eq_zero {n : ℕ} {v : Fin n → ℚ} (h : sqNorm v = 0) :
    ∀ i, v i = 0 := by
  intro i
  have hz := (Finset.sum_eq_zero_iff_of_nonneg
    (fun j _ => sq_nonneg (v j))).mp h i (Finset.mem_univ i)
  exact (pow_eq_zero_iff (two_ne_zero)).mp hz

theorem mixPixel_zero : mixPixel (fun _ => 0) = fun _ => 0 := by
  funext i
  simp [mixPixel]

/-- Mixing the response rows with the kernel weights produces the zero
pixel. -/
theorem mixPixel_kerVec : mixPixel kerVec = fun _ => 0 := by
  funext i
  fin_cases i <;>
    · simp only [mixPixel, kerVec, responses, Fin.sum_univ_five]
      norm_num

theorem kerVec_ne_zero : kerVec ≠ fun _ => 0 := by
  intro h
  have h0 := congrFun h 0
  norm_num [kerVec] at h0

/-- The all-zero weight vector is a minimum-norm least-squares solution
for the zero pixel. -/
theorem lstsq_zero_sol : IsLstsqSol (fun _ => 0) (fun _ => 0) := by
  have hLHS : sqNorm (fun i => mixPixel (fun _ => 0) i - (fun _ : Fin 3 => (0 : ℚ)) i) = 0 := by
    simp [sqNorm, mixPixel]
  have h0 : sqNorm (fun _ : Fin 5 => (0 : ℚ)) = 0 := by simp [sqNorm]
  refine ⟨fun y => ?_, fun y _ => ?_⟩
  · rw [hLHS]
    exact sqNorm_nonneg _
  · rw [h0]
    exact sqNorm_nonneg _

/-- For the zero pixel the minimum-norm least-squares solution is unique:
it is the all-zero weight vector. -/
theorem lstsq_zero_unique (x : Fin 5 → ℚ) (hx : IsLstsqSol (fun _ => 0) x) :
    x = fun _ => 0 := by
  have hle := hx.2 (fun _ => 0) lstsq_zero_sol.1
  have h0 : sqNorm (fun _ : Fin 5 => (0 : ℚ)) = 0 := by simp [sqNorm]
  rw [h0] at hle
  have hz : sqNorm x = 0 := le_antisymm hle (sqNorm_nonneg x)
  funext i
  exact sqNorm_eq_zero hz i

/-- **C3 counterexample.** The per-pixel system is underdetermined (five
chromophore rows, three channels), so the claim fails: the zero image is
an exact linear combination of the five response rows with the known
nonzero coefficients `kerVec` (a kernel vector of `responses.T`), yet the
minimum-norm least-squares solve recovers the all-zero weights — uniquely
so — which differ from the known mixing coefficients. -/
theorem lstsq_recovery_claim_false :
    mixPixel kerVec = (fun _ => 0) ∧
    kerVec ≠ (fun _ => 0) ∧
    IsLstsqSol (fun _ => 0) (fun _ => 0) ∧
    (∀ x : Fin 5 → ℚ, IsLstsqSol (fun _ => 0) x → x = fun _ => 0) :=
  ⟨mixPixel_kerVec, kerVec_ne_zero, lstsq_zero_sol, lstsq_zero_unique⟩

/-- **C3 amended.** For every pixel that is an exact linear combination of
the five chromophore response rows with known coefficients `w`, the
weights recovered by the batched least-squares solve reconstruct the
observed pixel vector exactly — `responsesᵀ · x = responsesᵀ · w` — but,
the per-pixel system being underdetermined, they are the minimum-norm
solution and need not equal the known mixing coefficients themselves. -/
theorem lstsq_reconstructs_pixels (w x : Fin 5 → ℚ)
    (hx : IsLstsqSol (mixPixel w) x) : ∀ i, mixPixel x i = mixPixel w i := by
  have h := hx.1 w
  have hzero : sqNorm (fun i => mixPixel w i - mixPixel w i) = 0 := by
    simp [sqNorm]
  rw [hzero] at h
  have hres : sqNorm (fun i => mixPixel x i - mixPixel w i) = 0 :=
    le_antisymm h (sqNorm_nonneg _)
  intro i
  have hi := sqNorm_eq_zero hres i
  have := sub_eq_zero.mp hi
  exact this

/-- **C3 witness**: the zero image mixed with the zero coefficients. -/
theorem lstsq_reconstructs_pixels_witness :
    IsLstsqSol (mixPixel (fun _ => 0)) (fun _ => 0) ∧
    (∀ i, mixPixel (fun _ => (0 : ℚ)) i = mixPixel (fun _ => (0 : ℚ)) i) :=
  ⟨by rw [mixPixel_zero]; exact lstsq_zero_sol,
   lstsq_reconstructs_pixels (fun _ => 0) (fun _ => 0)
     (by rw [mixPixel_zero]; exact lstsq_zero_sol)⟩

end Parkinsons
